import Mathlib

set_option maxHeartbeats 1000000
set_option maxRecDepth 100000

deriving instance DecidableEq for Except

namespace ReviewGen

/-! # Shallow embedding of the `reviewgen` pipeline

Character-level helpers modelling the Python string primitives used by
`src/reviewgen` (`str.strip`, `str.split`, `re.sub`, `re.split`, `str.join`,
decimal formatting), followed by the pipeline functions themselves and the
theorems settling the specification claims. -/

/-- Python whitespace predicate, as used by `str.strip`, `str.split` and the
`\s` class of the `re` module on `str` input: ASCII whitespace together with
the Unicode space characters Python recognises. -/
def isPySpace (c : Char) : Bool :=
  c = ' ' || c = '\t' || c = '\n' || c = '\r' || c = '\x0b' || c = '\x0c' ||
  c = '\x1c' || c = '\x1d' || c = '\x1e' || c = '\x1f' || c = '\x85' || c = '\xa0' ||
  c = '\u1680' || (0x2000 ≤ c.toNat && c.toNat ≤ 0x200a) || c = '\u2028' ||
  c = '\u2029' || c = '\u202f' || c = '\u205f' || c = '\u3000'

/-- Drop the trailing characters satisfying `p` (the right-hand half of
Python `str.strip`). -/
def dropTrail (p : Char → Bool) : List Char → List Char
  | [] => []
  | c :: cs =>
    let r := dropTrail p cs
    if r = [] && p c then [] else c :: r

/-- Python `str.strip` on a character list: remove leading and trailing
whitespace. -/
def stripChars (l : List Char) : List Char := dropTrail isPySpace (l.dropWhile isPySpace)

/-- Python `str.strip`. -/
def pyStrip (s : String) : String := ⟨stripChars s.data⟩

/-- Model of `re.sub(r"\s+", " ", text)`: collapse every maximal whitespace
run to a single space. -/
def collapseWs : List Char → List Char
  | [] => []
  | [c] => if isPySpace c then [' '] else [c]
  | c :: d :: rest =>
    if isPySpace c && isPySpace d then collapseWs (d :: rest)
    else (if isPySpace c then ' ' else c) :: collapseWs (d :: rest)

/-- `preprocess.basic_clean`: replace byte-order marks by a space, strip,
and normalize the remaining whitespace runs to single spaces. -/
def basic_clean (text : String) : String :=
  ⟨collapseWs (stripChars (text.data.map fun c => if c = '\ufeff' then ' ' else c))⟩

/-- Python `str.split(sep)` for a one-character separator: empty parts are
kept, so the result is always non-empty. -/
def splitOnChar (sep : Char) : List Char → List (List Char)
  | [] => [[]]
  | c :: cs =>
    if c = sep then [] :: splitOnChar sep cs
    else
      match splitOnChar sep cs with
      | [] => [[c]]
      | t :: ts => (c :: t) :: ts

/-- Python `sep.join` at the character-list level. -/
def joinWith (sep : List Char) : List (List Char) → List Char
  | [] => []
  | [l] => l
  | l :: l2 :: rest => l ++ sep ++ joinWith sep (l2 :: rest)

/-- Python `" ".join` at the character-list level. -/
def joinSp (ls : List (List Char)) : List Char := joinWith [' '] ls

/-- Python `"\n".join` at the character-list level. -/
def joinNl (ls : List (List Char)) : List Char := joinWith ['\n'] ls

/-- Python `sep.join` on strings. -/
def pyJoin (sep : List Char) (ss : List String) : String := ⟨joinWith sep (ss.map String.data)⟩

/-- Total character count of a list of fragments. -/
def sumLen (ls : List (List Char)) : Nat := (ls.map List.length).sum

/-- Decimal digits of `n`, least significant first, with explicit fuel so
that the definition is structurally recursive (fuel `n` always suffices). -/
def decDigits : Nat → Nat → List Nat
  | 0, _ => []
  | fuel + 1, n => if n = 0 then [] else n % 10 :: decDigits fuel (n / 10)

/-- Character of a single decimal digit. -/
def digitCh (d : Nat) : Char := ['0', '1', '2', '3', '4', '5', '6', '7', '8', '9'].getD d '0'

/-- Numeric value of a decimal digit character. -/
def digitVal (c : Char) : Nat := c.toNat - 48

/-- Decimal rendering of a natural number, modelling Python `str(n)` and
f-string interpolation of a non-negative integer. -/
def decimalRepr (n : Nat) : String :=
  if n = 0 then "0" else ⟨(decDigits n n).reverse.map digitCh⟩

example : decimalRepr 120 = "120" := by decide

example : basic_clean "  Hello \t\n  world  " = "Hello world" := by decide

example : pyStrip "  a b " = "a b" := by decide

example : splitOnChar ';' "A;B;;C".data = ["A".data, "B".data, [], "C".data] := by decide

/-- `decDigits` with enough fuel agrees with Mathlib's `Nat.digits 10`. -/
theorem decDigits_eq_digits (fuel n : Nat) (h : n ≤ fuel) :
    decDigits fuel n = Nat.digits 10 n := by
  induction fuel generalizing n with
  | zero =>
    have h0 : n = 0 := Nat.le_zero.mp h
    subst h0
    simp [decDigits]
  | succ fuel ih =>
    by_cases hn : n = 0
    · simp [decDigits, hn]
    · have hdiv : n / 10 ≤ fuel := by
        have : n / 10 < n := Nat.div_lt_self (Nat.pos_of_ne_zero hn) (by norm_num)
        omega
      simp only [decDigits, if_neg hn]
      rw [ih (n / 10) hdiv, Nat.digits_def' (by norm_num : (1 : Nat) < 10) (Nat.pos_of_ne_zero hn)]

/-- `digitVal` is a left inverse of `digitCh` on actual digits. -/
theorem digitVal_digitCh (d : Nat) (h : d < 10) : digitVal (digitCh d) = d := by
  interval_cases d <;> decide

/-- Decimal rendering is injective on positive numbers. -/
theorem decimalRepr_injOn_pos (m n : Nat) (hm : 0 < m) (hn : 0 < n)
    (h : decimalRepr m = decimalRepr n) : m = n := by
  unfold decimalRepr at h
  rw [if_neg (Nat.pos_iff_ne_zero.mp hm), if_neg (Nat.pos_iff_ne_zero.mp hn)] at h
  have hdata : (decDigits m m).reverse.map digitCh = (decDigits n n).reverse.map digitCh := by
    have hd := congrArg String.data h
    simpa using hd
  rw [decDigits_eq_digits m m le_rfl, decDigits_eq_digits n n le_rfl] at hdata
  have hval := congrArg (List.map digitVal) hdata
  rw [List.map_map, List.map_map] at hval
  have hid : ∀ k : Nat, (Nat.digits 10 k).reverse.map (digitVal ∘ digitCh)
      = (Nat.digits 10 k).reverse := by
    intro k
    rw [List.map_congr_left, List.map_id]
    intro x hx
    exact digitVal_digitCh x (Nat.digits_lt_base (by norm_num) (List.mem_reverse.mp hx))
  rw [hid m, hid n] at hval
  have hdig : Nat.digits 10 m = Nat.digits 10 n := List.reverse_injective hval
  have hofm := Nat.ofDigits_digits 10 m
  have hofn := Nat.ofDigits_digits 10 n
  rw [← hofm, ← hofn, hdig]

/-! ## Citations (`src/reviewgen/citations.py`) -/

/-- Citation label `f"[S{idx}]"`. -/
def sLabel (idx : Nat) : String := ⟨'[' :: 'S' :: (decimalRepr idx).data ++ [']']⟩

/-- Insertion into a Python `dict` modelled as an ordered association list:
an existing key is updated in place, a new key is appended at the end. -/
def dictInsert (m : List (String × String)) (k v : String) : List (String × String) :=
  if m.any fun kv => kv.1 = k then
    m.map fun kv => if kv.1 = k then (k, v) else kv
  else m ++ [(k, v)]

/-- Model of `pathlib.Path(p).name`: the last component of the path after
splitting on `'/'`, ignoring empty components and `"."` components (pathlib
drops those while parsing); the empty string when no component remains. -/
def pathName (p : String) : String :=
  ⟨((splitOnChar '/' p.data).filter fun c => decide (c ≠ []) && decide (c ≠ ['.'])).getLastD []⟩

/-- Loop of `citations.map_sources`: `for idx, path in enumerate(paths, start=1):
mapping[f"[S{idx}]"] = Path(path).name`. -/
def mapSourcesLoop : List (String × String) → Nat → List String → List (String × String)
  | mapping, _, [] => mapping
  | mapping, idx, p :: rest =>
    mapSourcesLoop (dictInsert mapping (sLabel idx) (pathName p)) (idx + 1) rest

/-- `citations.map_sources`: map source paths to citation labels `[S1]`, `[S2]`, … -/
def map_sources (paths : List String) : List (String × String) :=
  mapSourcesLoop [] 1 paths

/-- `citations.rotate_citations`: labels attached to sections round-robin. -/
def rotate_citations (mapping : List (String × String)) (count : Nat) : List String :=
  let labels := mapping.map Prod.fst
  if labels = [] then []
  else (List.range count).map fun i => labels.getD (i % labels.length) ""

/-- `citations.format_references`: one `"{label} {name}"` line per entry,
joined with newlines. -/
def format_references (mapping : List (String × String)) : String :=
  ⟨joinNl (mapping.map fun kv => kv.1.data ++ ' ' :: kv.2.data)⟩

example : map_sources ["a.txt", "dir/b.txt"] =
    [("[S1]", "a.txt"), ("[S2]", "b.txt")] := by decide

example : rotate_citations [("[S1]", "a"), ("[S2]", "b")] 5 =
    ["[S1]", "[S2]", "[S1]", "[S2]", "[S1]"] := by decide

/-- Citation labels are injective for positive indices. -/
theorem sLabel_injOn_pos (i j : Nat) (hi : 0 < i) (hj : 0 < j)
    (h : sLabel i = sLabel j) : i = j := by
  have hd := congrArg String.data h
  simp only [sLabel] at hd
  have h1 : (decimalRepr i).data ++ [']'] = (decimalRepr j).data ++ [']'] := by
    injection hd with _ hd1
    injection hd1 with _ hd2
  have h2 : (decimalRepr i).data = (decimalRepr j).data := List.append_cancel_right h1
  exact decimalRepr_injOn_pos i j hi hj (by
    cases hrep : decimalRepr i
    cases hrep2 : decimalRepr j
    simp_all)

/-- Closed form of the `map_sources` loop: since the generated labels are
always fresh, each `dict` insertion appends a new entry. -/
def sourceEntries : Nat → List String → List (String × String)
  | _, [] => []
  | idx, p :: rest => (sLabel idx, pathName p) :: sourceEntries (idx + 1) rest

theorem mapSourcesLoop_eq (paths : List String) :
    ∀ (m : List (String × String)) (idx : Nat), 0 < idx →
    (∀ kv ∈ m, ∃ j, 0 < j ∧ j < idx ∧ kv.1 = sLabel j) →
    mapSourcesLoop m idx paths = m ++ sourceEntries idx paths := by
  induction paths with
  | nil => intro m idx _ _; simp [mapSourcesLoop, sourceEntries]
  | cons p rest ih =>
    intro m idx hidx hm
    have hfresh : (m.any fun kv => kv.1 = sLabel idx) = false := by
      rw [List.any_eq_false]
      intro kv hkv
      obtain ⟨j, hj0, hjlt, hjeq⟩ := hm kv hkv
      simp only [decide_eq_true_eq]
      intro hc
      rw [hjeq] at hc
      have := sLabel_injOn_pos j idx hj0 hidx hc
      omega
    have hins : dictInsert m (sLabel idx) (pathName p) = m ++ [(sLabel idx, pathName p)] := by
      simp [dictInsert, hfresh]
    rw [mapSourcesLoop, hins, ih (m ++ [(sLabel idx, pathName p)]) (idx + 1) (by omega) ?_]
    · simp [sourceEntries]
    · intro kv hkv
      rcases List.mem_append.mp hkv with hkv | hkv
      · obtain ⟨j, hj0, hjlt, hjeq⟩ := hm kv hkv
        exact ⟨j, hj0, by omega, hjeq⟩
      · simp only [List.mem_singleton] at hkv
        exact ⟨idx, hidx, by omega, by rw [hkv]⟩

theorem map_sources_eq (paths : List String) :
    map_sources paths = sourceEntries 1 paths := by
  have h := mapSourcesLoop_eq paths [] 1 (by omega) (by simp)
  simpa [map_sources] using h

theorem sourceEntries_fst (paths : List String) :
    ∀ idx, (sourceEntries idx paths).map Prod.fst =
      (List.range paths.length).map fun i => sLabel (idx + i) := by
  induction paths with
  | nil => intro idx; simp [sourceEntries]
  | cons p rest ih =>
    intro idx
    rw [sourceEntries, List.map_cons, ih (idx + 1), List.length_cons,
      List.range_succ_eq_map, List.map_cons, List.map_map]
    refine congrArg₂ _ (by rw [Nat.add_zero]) (List.map_congr_left fun i _ => ?_)
    simp only [Function.comp_apply, Nat.succ_eq_add_one]
    exact congrArg sLabel (by omega)

theorem sourceEntries_snd (paths : List String) :
    ∀ idx, (sourceEntries idx paths).map Prod.snd = paths.map pathName := by
  induction paths with
  | nil => intro idx; simp [sourceEntries]
  | cons p rest ih => intro idx; simp [sourceEntries, ih (idx + 1)]

/-- C7: for every sequence of document names, `map_sources` produces exactly
the labels `[S1]`, …, `[Sn]` in input order with no gaps and no duplicates,
each label mapped to the corresponding input name (for plain document names,
i.e. inputs fixed by `Path(·).name`); the empty sequence yields the empty map. -/
theorem claim_C7_map_sources_labels (names : List String) :
    (names = [] → map_sources names = []) ∧
    (map_sources names).map Prod.fst = (List.range names.length).map (fun i => sLabel (i + 1)) ∧
    ((map_sources names).map Prod.fst).Nodup ∧
    ((∀ x ∈ names, pathName x = x) → (map_sources names).map Prod.snd = names) := by
  refine ⟨?_, ?_, ?_, ?_⟩
  · intro h; subst h; rfl
  · rw [map_sources_eq, sourceEntries_fst names 1]
    exact List.map_congr_left fun i _ => congrArg sLabel (by omega)
  · rw [map_sources_eq, sourceEntries_fst names 1]
    refine List.Nodup.map_on ?_ (List.nodup_range _)
    intro x _ y _ hxy
    have := sLabel_injOn_pos (1 + x) (1 + y) (by omega) (by omega) hxy
    omega
  · intro hnames
    rw [map_sources_eq, sourceEntries_snd names 1]
    rw [List.map_congr_left hnames]
    simp

theorem claim_C7_witness :
    map_sources [] = [] ∧
    (map_sources ["a.txt", "b.txt"]).map Prod.snd = ["a.txt", "b.txt"] :=
  ⟨(claim_C7_map_sources_labels []).1 rfl,
   (claim_C7_map_sources_labels ["a.txt", "b.txt"]).2.2.2 (by decide)⟩

/-- C6: `rotate_citations` returns exactly `count` labels — the label at
position `i` being the `(i % |map|)`-th label of the map — when the map is
non-empty, and the empty sequence when the map is empty, for every `count`. -/
theorem claim_C6_rotate_citations (mapping : List (String × String)) (count : Nat) :
    (mapping = [] → rotate_citations mapping count = []) ∧
    (mapping ≠ [] →
      (rotate_citations mapping count).length = count ∧
      ∀ i, i < count →
        (rotate_citations mapping count).getD i "" =
          (mapping.map Prod.fst).getD (i % mapping.length) "") := by
  constructor
  · intro h; subst h; rfl
  · intro h
    have hlab : (mapping.map Prod.fst) ≠ [] := by simpa using h
    constructor
    · simp [rotate_citations, h]
    · intro i hi
      simp only [rotate_citations, if_neg hlab]
      rw [List.getD_eq_getElem?_getD, List.getElem?_map, List.getElem?_range hi]
      simp [List.getD_eq_getElem?_getD, List.length_map]

theorem claim_C6_witness :
    (rotate_citations [("[S1]", "a"), ("[S2]", "b")] 5).length = 5 ∧
    rotate_citations [] 7 = [] :=
  ⟨((claim_C6_rotate_citations [("[S1]", "a"), ("[S2]", "b")] 5).2 (by decide)).1,
   (claim_C6_rotate_citations [] 7).1 rfl⟩

/-! ## Outline planning (`src/reviewgen/outline.py`) -/

/-- Python `str.lower` (ASCII case folding, which covers the mode strings). -/
def strLower (s : String) : String := ⟨s.data.map Char.toLower⟩

/-- Mode-specific outline body: the `if/elif` lookup table inside
`outline.generate_outline` for the built-in modes, with the generic
`"Key themes"` body as the default fallback. -/
def modeBody (mode : String) : List String :=
  if mode = "timeline" then ["Early stage", "Middle stage", "Recent trends"]
  else if mode = "school" then ["Methodological schools", "Representative work", "Key debates"]
  else if mode = "application" then ["Applications", "Case studies", "Impact"]
  else ["Key themes"]

/-- `outline.generate_outline`: outline sections based on mode.  The
`ValueError` raised for a missing custom outline is modelled as `.error`. -/
def generate_outline (mode topic : String) (keywords : List String)
    (custom_outline : Option String) : Except String (List String) :=
  let m := strLower mode
  if m = "custom" then
    match custom_outline with
    | none => .error "Custom outline is required for mode 'custom'"
    | some co =>
      if co = "" then .error "Custom outline is required for mode 'custom'"
      else .ok (((splitOnChar ';' co.data).map fun sec => pyStrip ⟨sec⟩).filter fun sec => sec != "")
  else
    let body := modeBody m
    let body :=
      if keywords ≠ [] then
        body ++ ["Cross-cutting themes: " ++ pyJoin [',', ' '] (keywords.take 4)]
      else body
    .ok (["Introduction"] ++ body ++
      ["Comparative Analysis", "Challenges and Limitations", "Future Directions", "References"])

example : generate_outline "timeline" "AI" ["x", "y"] none =
    .ok ["Introduction", "Early stage", "Middle stage", "Recent trends",
      "Cross-cutting themes: x, y", "Comparative Analysis",
      "Challenges and Limitations", "Future Directions", "References"] := rfl

/-- C3 counterexample: a custom spec containing only a semicolon is truthy,
so it is accepted without a configuration error, and the resulting outline
is empty — the code does not treat an empty split result as a validation
failure. -/
theorem claim_C3_counterexample :
    generate_outline "custom" "T" [] (some ";") = .ok [] := rfl

/-- C3 (amended): for mode `custom`, outline planning splits the spec on
semicolons, trims each part, drops empty parts and preserves order; a `None`
or empty-string spec fails with a configuration error; but a non-empty spec
whose parts are all empty after trimming yields an empty outline without
raising.  In particular `plan("custom", _, _, "A;B;C") = ["A","B","C"]`. -/
theorem claim_C3_custom_outline (topic : String) (keywords : List String) :
    generate_outline "custom" topic keywords none =
      .error "Custom outline is required for mode 'custom'" ∧
    generate_outline "custom" topic keywords (some "") =
      .error "Custom outline is required for mode 'custom'" ∧
    (∀ s : String, s ≠ "" →
      generate_outline "custom" topic keywords (some s) =
        .ok (((splitOnChar ';' s.data).map fun sec => pyStrip ⟨sec⟩).filter fun sec => sec != "")) ∧
    generate_outline "custom" topic keywords (some "A;B;C") = .ok ["A", "B", "C"] := by
  refine ⟨rfl, rfl, ?_, rfl⟩
  intro s hs
  have hred : generate_outline "custom" topic keywords (some s) =
      if s = "" then Except.error "Custom outline is required for mode 'custom'"
      else Except.ok (((splitOnChar ';' s.data).map fun sec => pyStrip ⟨sec⟩).filter
        fun sec => sec != "") := rfl
  rw [hred, if_neg hs]

theorem claim_C3_witness :
    generate_outline "custom" "T" [] (some "A;B;C") = .ok ["A", "B", "C"] :=
  (claim_C3_custom_outline "T" []).2.2.2

/-- C4: for every non-custom mode, the outline is `["Introduction"]`, the
mode-specific body (`timeline` / `school` / `application`, any other mode
falling back to the single `"Key themes"` body without raising), one extra
body section built from the first 4 keywords joined by commas when keywords
are non-empty, and the fixed closing sections. -/
theorem claim_C4_outline_structure (mode topic : String) (keywords : List String)
    (co : Option String) (h : strLower mode ≠ "custom") :
    generate_outline mode topic keywords co =
      .ok (["Introduction"] ++ modeBody (strLower mode) ++
        (if keywords = [] then []
         else ["Cross-cutting themes: " ++ pyJoin [',', ' '] (keywords.take 4)]) ++
        ["Comparative Analysis", "Challenges and Limitations", "Future Directions",
          "References"]) := by
  simp only [generate_outline, if_neg h]
  by_cases hk : keywords = [] <;> simp [hk]

theorem claim_C4_witness :
    generate_outline "weird" "T" ["k1", "k2", "k3", "k4", "k5"] none =
      .ok ["Introduction", "Key themes", "Cross-cutting themes: k1, k2, k3, k4",
        "Comparative Analysis", "Challenges and Limitations", "Future Directions",
        "References"] := by
  rw [claim_C4_outline_structure "weird" "T" ["k1", "k2", "k3", "k4", "k5"] none (by decide)]
  rfl

/-! ## Properties of stripping -/

theorem dropWhile_head_not {p : Char → Bool} :
    ∀ (l : List Char) {c : Char} {cs : List Char},
      List.dropWhile p l = c :: cs → p c = false := by
  intro l
  induction l with
  | nil => intro c cs h; simp [List.dropWhile] at h
  | cons a as ih =>
    intro c cs h
    rw [List.dropWhile_cons] at h
    by_cases hp : p a
    · rw [if_pos hp] at h; exact ih h
    · rw [if_neg hp] at h
      cases h
      simpa using hp

theorem dropWhile_idem (p : Char → Bool) (l : List Char) :
    (l.dropWhile p).dropWhile p = l.dropWhile p := by
  cases h : l.dropWhile p with
  | nil => simp
  | cons c cs => rw [List.dropWhile_cons, if_neg (by simp [dropWhile_head_not l h])]

theorem dropTrail_idem (p : Char → Bool) (l : List Char) :
    dropTrail p (dropTrail p l) = dropTrail p l := by
  induction l with
  | nil => rfl
  | cons c cs ih =>
    rw [dropTrail]
    by_cases hr : (dropTrail p cs = [] ∧ p c = true)
    · rw [if_pos (by simp [hr.1, hr.2])]; rfl
    · rw [if_neg (by simpa using hr)]
      rw [dropTrail, ih]
      rw [if_neg (by simpa using hr)]

theorem dropTrail_cons_shape (p : Char → Bool) (c : Char) (cs : List Char) :
    dropTrail p (c :: cs) = [] ∨ ∃ ds, dropTrail p (c :: cs) = c :: ds := by
  rw [dropTrail]
  by_cases h : (dropTrail p cs = [] ∧ p c = true)
  · exact Or.inl (by rw [if_pos (by simp [h.1, h.2])])
  · exact Or.inr ⟨dropTrail p cs, by rw [if_neg (by simpa using h)]⟩

theorem stripChars_idem (l : List Char) : stripChars (stripChars l) = stripChars l := by
  unfold stripChars
  have hdw : ∀ m : List Char, (∀ c cs, m = c :: cs → isPySpace c = false) →
      (dropTrail isPySpace m).dropWhile isPySpace = dropTrail isPySpace m := by
    intro m hm
    cases m with
    | nil => rfl
    | cons c cs =>
      have hc : isPySpace c = false := hm c cs rfl
      rcases dropTrail_cons_shape isPySpace c cs with h | ⟨ds, h⟩
      · simp [h]
      · rw [h, List.dropWhile_cons, if_neg (by simp [hc])]
  rw [hdw (l.dropWhile isPySpace) fun c cs h => dropWhile_head_not l h, dropTrail_idem]

theorem pyStrip_idem (s : String) : pyStrip (pyStrip s) = pyStrip s := by
  simp [pyStrip, stripChars_idem]

/-! ## Deduplication (`src/reviewgen/preprocess.py`, `deduplicate`) -/

/-- Loop of `preprocess.deduplicate`, with the `seen` set modelled as the
list of values already kept. -/
def dedupLoop : List String → List String → List String
  | [], _ => []
  | t :: rest, seen =>
    let key := pyStrip t
    if key ≠ "" ∧ key ∉ seen then key :: dedupLoop rest (key :: seen)
    else dedupLoop rest seen

/-- `preprocess.deduplicate`: deduplicate while preserving order, keying on
the stripped text and dropping entries whose stripped text is empty. -/
def deduplicate (texts : List String) : List String := dedupLoop texts []

/-- Specification-side companion of `deduplicate`: keep the first occurrence
of each distinct element of a list. -/
def firstOccur : List String → List String
  | [] => []
  | a :: l => a :: firstOccur (l.filter fun b => b != a)
termination_by l => l.length
decreasing_by simp only [List.length_cons]; exact Nat.lt_succ_of_le (List.length_filter_le _ _)

/-- Keys that `deduplicate` would still keep, given the `seen` values. -/
def keepKey (seen : List String) (k : String) : Bool := k != "" && decide (k ∉ seen)

theorem keepKey_cons (key : String) (seen : List String) (a : String) :
    ((a != key) && keepKey seen a) = keepKey (key :: seen) a := by
  by_cases h1 : a = key <;> by_cases h2 : a = "" <;> by_cases h3 : a ∈ seen <;>
    simp [keepKey, h1, h2, h3]

theorem dedupLoop_eq (texts : List String) : ∀ seen : List String,
    dedupLoop texts seen = firstOccur ((texts.map pyStrip).filter (keepKey seen)) := by
  induction texts with
  | nil => intro seen; simp [dedupLoop, firstOccur]
  | cons t rest ih =>
    intro seen
    rw [List.map_cons]
    by_cases hcond : pyStrip t ≠ "" ∧ pyStrip t ∉ seen
    · have hkeep : keepKey seen (pyStrip t) = true := by
        simp [keepKey, hcond.1, hcond.2]
      simp only [dedupLoop]
      rw [if_pos hcond, List.filter_cons_of_pos hkeep, firstOccur,
        List.filter_filter, ih (pyStrip t :: seen)]
      exact congrArg₂ _ rfl (congrArg firstOccur
        (List.filter_congr fun a _ => (keepKey_cons (pyStrip t) seen a).symm))
    · have hkeep : keepKey seen (pyStrip t) = false := by
        rcases not_and_or.mp hcond with h | h
        · simp [keepKey, not_not.mp h]
        · simp [keepKey, not_not.mp h]
      simp only [dedupLoop]
      rw [if_neg hcond, List.filter_cons_of_neg (by simp [hkeep]), ih seen]

theorem deduplicate_eq (texts : List String) :
    deduplicate texts = firstOccur ((texts.map pyStrip).filter fun k => k != "") := by
  rw [deduplicate, dedupLoop_eq texts []]
  congr 1
  exact List.filter_congr fun a _ => by simp [keepKey]

theorem firstOccur_mem : ∀ (l : List String) (a : String), a ∈ firstOccur l → a ∈ l := by
  intro l
  induction l using firstOccur.induct with
  | case1 => intro a h; rw [firstOccur] at h; simp at h
  | case2 b rest ih =>
    intro a h
    rw [firstOccur] at h
    rcases List.mem_cons.mp h with h | h
    · simp [h]
    · exact List.mem_cons_of_mem b (List.mem_of_mem_filter (ih a h))

theorem firstOccur_nodup : ∀ l : List String, (firstOccur l).Nodup := by
  intro l
  induction l using firstOccur.induct with
  | case1 => simp [firstOccur]
  | case2 b rest ih =>
    rw [firstOccur]
    refine List.nodup_cons.mpr ⟨fun hmem => ?_, ih⟩
    have := List.of_mem_filter (firstOccur_mem _ _ hmem)
    simp at this

theorem firstOccur_of_nodup : ∀ l : List String, l.Nodup → firstOccur l = l := by
  intro l
  induction l using firstOccur.induct with
  | case1 => intro _; simp [firstOccur]
  | case2 b rest ih =>
    intro hnd
    have hb : b ∉ rest := (List.nodup_cons.mp hnd).1
    have hrest : rest.filter (fun x => x != b) = rest :=
      List.filter_eq_self.mpr fun a ha => by
        simp only [bne_iff_ne, ne_eq, decide_eq_true_eq]
        intro hc; rw [hc] at ha; exact hb ha
    rw [firstOccur, ih (by rw [hrest]; exact (List.nodup_cons.mp hnd).2), hrest]

/-- C8: `deduplicate` keeps exactly the first occurrence of each distinct
cleaned (stripped) value, preserving the order of first occurrences and
dropping texts whose cleaned value is empty — and it is idempotent. -/
theorem claim_C8_dedupe_idempotent (texts : List String) :
    deduplicate texts = firstOccur ((texts.map pyStrip).filter fun k => k != "") ∧
    deduplicate (deduplicate texts) = deduplicate texts := by
  refine ⟨deduplicate_eq texts, ?_⟩
  have helem : ∀ a ∈ deduplicate texts, pyStrip a = a ∧ a ≠ "" := by
    intro a ha
    rw [deduplicate_eq texts] at ha
    have hmem := firstOccur_mem _ _ ha
    have hne := List.of_mem_filter hmem
    obtain ⟨t, _, hat⟩ := List.mem_map.mp (List.mem_of_mem_filter hmem)
    refine ⟨?_, by simpa using hne⟩
    rw [← hat, pyStrip_idem]
  rw [deduplicate_eq (deduplicate texts)]
  rw [List.map_congr_left fun a ha => (helem a ha).1, List.map_id']
  rw [List.filter_eq_self.mpr fun a ha => by simp [(helem a ha).2]]
  refine firstOccur_of_nodup _ ?_
  rw [deduplicate_eq texts]
  exact firstOccur_nodup _

example : deduplicate ["a", "b", "a", "c", " a ", " ", ""] = ["a", "b", "c"] := by decide

/-! ## Segmentation (`src/reviewgen/preprocess.py`, `segment_text`) -/

/-- Terminal punctuation of the sentence-splitting regex `(?<=[。.!?])\s+`. -/
def isTerm (c : Char) : Bool := c = '。' || c = '.' || c = '!' || c = '?'

mutual
/-- State machine for `re.split(r"(?<=[。.!?])\s+", text)`: scanning an
ordinary token, accumulated in reverse in `acc`. -/
def splitAux : List Char → List Char → List (List Char)
  | [], acc => [acc.reverse]
  | c :: cs, acc =>
    if isTerm c then splitTerm cs (c :: acc) else splitAux cs (c :: acc)

/-- Scanning state right after a terminal punctuation character: following
whitespace opens a separator (the lookbehind has succeeded). -/
def splitTerm : List Char → List Char → List (List Char)
  | [], acc => [acc.reverse]
  | c :: cs, acc =>
    if isPySpace c then acc.reverse :: splitSep cs
    else if isTerm c then splitTerm cs (c :: acc)
    else splitAux cs (c :: acc)

/-- Scanning state inside a maximal whitespace separator run. -/
def splitSep : List Char → List (List Char)
  | [] => [[]]
  | c :: cs =>
    if isPySpace c then splitSep cs
    else if isTerm c then splitTerm cs [c]
    else splitAux cs [c]
end

/-- `re.split(r"(?<=[。.!?])\s+", text)`: split into sentence-like units at
terminal punctuation followed by whitespace, dropping the whitespace run. -/
def splitSentences (l : List Char) : List (List Char) := splitAux l []

/-- Loop of `preprocess.segment_text`: pack sentences into chunks while the
accumulated character count (of the sentences alone) stays within `max_len`,
flushing the current chunk when adding the next sentence would exceed it. -/
def segmentLoop (maxLen : Nat) : List (List Char) → List (List Char) → Nat → List (List Char)
  | [], current, _ => if current = [] then [] else [joinSp current]
  | s :: rest, current, currentLen =>
    if s = [] then segmentLoop maxLen rest current currentLen
    else if currentLen + s.length > maxLen ∧ current ≠ [] then
      joinSp current :: segmentLoop maxLen rest [s] s.length
    else segmentLoop maxLen rest (current ++ [s]) (currentLen + s.length)

/-- `preprocess.segment_text`: split text into sentence-aligned chunks for
downstream processing. -/
def segment_text (text : String) (max_len : Nat := 400) : List String :=
  (segmentLoop max_len (splitSentences text.data) [] 0).map fun l => (⟨l⟩ : String)

/-- Companion of `segmentLoop` that returns the chunk partition as groups of
sentences instead of space-joined chunks. -/
def groupLoop (maxLen : Nat) : List (List Char) → List (List Char) → Nat → List (List (List Char))
  | [], current, _ => if current = [] then [] else [current]
  | s :: rest, current, currentLen =>
    if s = [] then groupLoop maxLen rest current currentLen
    else if currentLen + s.length > maxLen ∧ current ≠ [] then
      current :: groupLoop maxLen rest [s] s.length
    else groupLoop maxLen rest (current ++ [s]) (currentLen + s.length)

/-- Sentence groups behind the chunks of `segment_text`. -/
def sentenceGroups (text : String) (maxLen : Nat) : List (List (List Char)) :=
  groupLoop maxLen (splitSentences text.data) [] 0

example : splitSentences "One. Two two. Three!".data =
    ["One.".data, "Two two.".data, "Three!".data] := by decide

example : segment_text "One. Two two. Three!" 12 = ["One. Two two.", "Three!"] := by decide

example : segment_text "Sentence one. Sentence two is quite long and should be split accordingly. End." 30 =
    ["Sentence one.", "Sentence two is quite long and should be split accordingly.", "End."] := by
  decide

theorem segmentLoop_eq_groupLoop (maxLen : Nat) :
    ∀ (sents current : List (List Char)) (clen : Nat),
    segmentLoop maxLen sents current clen = (groupLoop maxLen sents current clen).map joinSp := by
  intro sents
  induction sents with
  | nil => intro current clen; by_cases h : current = [] <;> simp [segmentLoop, groupLoop, h]
  | cons s rest ih =>
    intro current clen
    by_cases hs : s = []
    · simp only [segmentLoop, groupLoop, if_pos hs]
      exact ih current clen
    · by_cases hc : clen + s.length > maxLen ∧ current ≠ []
      · simp only [segmentLoop, groupLoop, if_neg hs, if_pos hc, List.map_cons]
        rw [ih [s] s.length]
      · simp only [segmentLoop, groupLoop, if_neg hs, if_neg hc]
        exact ih (current ++ [s]) (clen + s.length)

theorem groupLoop_join (maxLen : Nat) :
    ∀ (sents current : List (List Char)) (clen : Nat),
    (groupLoop maxLen sents current clen).flatten =
      current ++ sents.filter (fun s => s != []) := by
  intro sents
  induction sents with
  | nil => intro current clen; by_cases h : current = [] <;> simp [groupLoop, h]
  | cons s rest ih =>
    intro current clen
    by_cases hs : s = []
    · simp only [groupLoop, if_pos hs]
      rw [ih current clen]
      simp [List.filter_cons, hs]
    · by_cases hc : clen + s.length > maxLen ∧ current ≠ []
      · simp only [groupLoop, if_neg hs, if_pos hc, List.flatten_cons]
        rw [ih [s] s.length]
        simp [List.filter_cons, hs]
      · simp only [groupLoop, if_neg hs, if_neg hc]
        rw [ih (current ++ [s]) (clen + s.length)]
        simp [List.filter_cons, hs]

theorem groupLoop_groups_ne (maxLen : Nat) :
    ∀ (sents current : List (List Char)) (clen : Nat),
    ∀ g ∈ groupLoop maxLen sents current clen, g ≠ [] := by
  intro sents
  induction sents with
  | nil =>
    intro current clen g hg
    by_cases h : current = []
    · simp [groupLoop, h] at hg
    · simp only [groupLoop, if_neg h, List.mem_singleton] at hg
      rw [hg]; exact h
  | cons s rest ih =>
    intro current clen g hg
    by_cases hs : s = []
    · rw [groupLoop, if_pos hs] at hg
      exact ih current clen g hg
    · by_cases hc : clen + s.length > maxLen ∧ current ≠ []
      · rw [groupLoop, if_neg hs, if_pos hc] at hg
        rcases List.mem_cons.mp hg with h | h
        · rw [h]; exact hc.2
        · exact ih [s] s.length g h
      · rw [groupLoop, if_neg hs, if_neg hc] at hg
        exact ih (current ++ [s]) (clen + s.length) g hg

theorem sumLen_append (a b : List (List Char)) : sumLen (a ++ b) = sumLen a + sumLen b := by
  simp [sumLen]

theorem groupLoop_sum_le (maxLen : Nat) :
    ∀ (sents current : List (List Char)) (clen : Nat),
    clen = sumLen current → (2 ≤ current.length → clen ≤ maxLen) →
    ∀ g ∈ groupLoop maxLen sents current clen, 2 ≤ g.length → sumLen g ≤ maxLen := by
  intro sents
  induction sents with
  | nil =>
    intro current clen hlen hbound g hg h2
    by_cases h : current = []
    · simp [groupLoop, h] at hg
    · simp only [groupLoop, if_neg h, List.mem_singleton] at hg
      subst hg
      rw [← hlen]
      exact hbound h2
  | cons s rest ih =>
    intro current clen hlen hbound g hg h2
    by_cases hs : s = []
    · rw [groupLoop, if_pos hs] at hg
      exact ih current clen hlen hbound g hg h2
    · by_cases hc : clen + s.length > maxLen ∧ current ≠ []
      · rw [groupLoop, if_neg hs, if_pos hc] at hg
        rcases List.mem_cons.mp hg with h | h
        · subst h
          rw [← hlen]
          exact hbound h2
        · refine ih [s] s.length (by simp [sumLen]) (by intro h2s; simp at h2s) g h h2
      · rw [groupLoop, if_neg hs, if_neg hc] at hg
        refine ih (current ++ [s]) (clen + s.length) ?_ ?_ g hg h2
        · rw [sumLen_append, ← hlen]; simp [sumLen]
        · intro h2cur
          rcases not_and_or.mp hc with h | h
          · omega
          · have hcur : current = [] := not_not.mp h
            subst hcur
            simp at h2cur

theorem joinWith_cons (sep : List Char) (t : List Char) (ts : List (List Char)) (h : ts ≠ []) :
    joinWith sep (t :: ts) = t ++ sep ++ joinWith sep ts := by
  cases ts with
  | nil => exact absurd rfl h
  | cons u us => rfl

theorem joinWith_single_length (x : Char) :
    ∀ g : List (List Char), g ≠ [] → (joinWith [x] g).length + 1 = sumLen g + g.length := by
  intro g
  induction g with
  | nil => intro h; exact absurd rfl h
  | cons l ls ih =>
    intro _
    cases ls with
    | nil => simp [joinWith, sumLen]
    | cons l2 rest =>
      rw [joinWith_cons [x] l (l2 :: rest) (by simp)]
      have hih := ih (by simp)
      rw [List.length_append, List.length_append]
      have h1 : sumLen (l :: l2 :: rest) = l.length + sumLen (l2 :: rest) := by simp [sumLen]
      simp only [h1, List.length_cons, List.length_nil] at hih ⊢
      omega

theorem sumLen_filter_le (p : List Char → Bool) (ls : List (List Char)) :
    sumLen (ls.filter p) ≤ sumLen ls := by
  induction ls with
  | nil => simp [sumLen]
  | cons l rest ih =>
    rw [List.filter_cons]
    by_cases h : p l
    · rw [if_pos h]
      simp only [sumLen, List.map_cons, List.sum_cons] at ih ⊢
      omega
    · rw [if_neg h]
      simp only [sumLen, List.map_cons, List.sum_cons] at ih ⊢
      omega

theorem split_sumLen (l : List Char) :
    (∀ acc, sumLen (splitAux l acc) ≤ acc.length + l.length) ∧
    (∀ acc, sumLen (splitTerm l acc) ≤ acc.length + l.length) ∧
    sumLen (splitSep l) ≤ l.length := by
  induction l with
  | nil =>
    refine ⟨fun acc => ?_, fun acc => ?_, ?_⟩ <;> simp [splitAux, splitTerm, splitSep, sumLen]
  | cons c cs ih =>
    obtain ⟨ihA, ihT, ihS⟩ := ih
    refine ⟨fun acc => ?_, fun acc => ?_, ?_⟩
    · rw [splitAux]
      by_cases ht : isTerm c
      · rw [if_pos ht]
        have h := ihT (c :: acc)
        simp only [List.length_cons] at h ⊢
        omega
      · rw [if_neg ht]
        have h := ihA (c :: acc)
        simp only [List.length_cons] at h ⊢
        omega
    · rw [splitTerm]
      by_cases hw : isPySpace c
      · rw [if_pos hw]
        have h1 : sumLen (acc.reverse :: splitSep cs) = acc.length + sumLen (splitSep cs) := by
          simp [sumLen]
        rw [h1]
        simp only [List.length_cons]
        omega
      · rw [if_neg hw]
        by_cases ht : isTerm c
        · rw [if_pos ht]
          have h := ihT (c :: acc)
          simp only [List.length_cons] at h ⊢
          omega
        · rw [if_neg ht]
          have h := ihA (c :: acc)
          simp only [List.length_cons] at h ⊢
          omega
    · rw [splitSep]
      by_cases hw : isPySpace c
      · rw [if_pos hw]
        simp only [List.length_cons]
        omega
      · rw [if_neg hw]
        by_cases ht : isTerm c
        · rw [if_pos ht]
          have h := ihT [c]
          simp only [List.length_cons, List.length_nil] at h ⊢
          omega
        · rw [if_neg ht]
          have h := ihA [c]
          simp only [List.length_cons, List.length_nil] at h ⊢
          omega

theorem split_exists_ne (l : List Char) :
    (∀ acc, (acc ≠ [] ∨ l ≠ []) → ∃ t ∈ splitAux l acc, t ≠ []) ∧
    (∀ acc, acc ≠ [] → ∃ t ∈ splitTerm l acc, t ≠ []) := by
  induction l with
  | nil =>
    constructor
    · intro acc hor
      have hacc : acc ≠ [] := by
        rcases hor with h | h
        · exact h
        · exact absurd rfl h
      refine ⟨acc.reverse, by simp [splitAux], ?_⟩
      simp only [ne_eq, List.reverse_eq_nil_iff]
      exact hacc
    · intro acc hacc
      refine ⟨acc.reverse, by simp [splitTerm], ?_⟩
      simp only [ne_eq, List.reverse_eq_nil_iff]
      exact hacc
  | cons c cs ih =>
    obtain ⟨ihA, ihT⟩ := ih
    constructor
    · intro acc _
      rw [splitAux]
      by_cases ht : isTerm c
      · rw [if_pos ht]; exact ihT (c :: acc) (by simp)
      · rw [if_neg ht]; exact ihA (c :: acc) (Or.inl (by simp))
    · intro acc hacc
      rw [splitTerm]
      by_cases hw : isPySpace c
      · rw [if_pos hw]
        refine ⟨acc.reverse, List.mem_cons_self _ _, ?_⟩
        simp only [ne_eq, List.reverse_eq_nil_iff]
        exact hacc
      · rw [if_neg hw]
        by_cases ht : isTerm c
        · rw [if_pos ht]; exact ihT (c :: acc) (by simp)
        · rw [if_neg ht]; exact ihA (c :: acc) (Or.inl (by simp))

theorem groupLoop_single (maxLen : Nat) :
    ∀ (sents current : List (List Char)) (clen : Nat),
    clen + sumLen (sents.filter fun t => t != []) ≤ maxLen →
    (current ≠ [] ∨ (sents.filter fun t => t != []) ≠ []) →
    groupLoop maxLen sents current clen = [current ++ sents.filter fun t => t != []] := by
  intro sents
  induction sents with
  | nil =>
    intro current clen _ hor
    have hcur : current ≠ [] := by
      rcases hor with h | h
      · exact h
      · simp at h
    simp [groupLoop, hcur]
  | cons s rest ih =>
    intro current clen hsum hor
    by_cases hs : s = []
    · have hfil : (s :: rest).filter (fun t => t != []) = rest.filter (fun t => t != []) := by
        simp [List.filter_cons, hs]
      rw [groupLoop, if_pos hs]
      rw [hfil] at hsum hor ⊢
      exact ih current clen hsum hor
    · have hfil : (s :: rest).filter (fun t => t != []) = s :: rest.filter (fun t => t != []) := by
        simp [List.filter_cons, hs]
      rw [hfil] at hsum ⊢
      have hsumS : sumLen (s :: rest.filter fun t => t != []) =
          s.length + sumLen (rest.filter fun t => t != []) := by simp [sumLen]
      rw [hsumS] at hsum
      have hnoflush : ¬(clen + s.length > maxLen ∧ current ≠ []) := by
        rintro ⟨h1, _⟩
        omega
      rw [groupLoop, if_neg hs, if_neg hnoflush]
      rw [ih (current ++ [s]) (clen + s.length) (by omega) (Or.inl (by simp))]
      simp

/-- C5 counterexample: with `maxLen = 6` and text `"ab. cd."`, no single
sentence exceeds 6 characters, yet the unique chunk has 7 characters (the
joining space is not counted by the packing loop), so a chunk exceeds
`maxLen` although no sentence does; moreover the empty text, though shorter
than `maxLen`, yields zero chunks rather than exactly one. -/
theorem claim_C5_counterexample :
    (segment_text "ab. cd." 6 = ["ab. cd."] ∧
      ("ab. cd." : String).length = 7 ∧
      ∀ s ∈ splitSentences ("ab. cd." : String).data, s.length ≤ 6) ∧
    (segment_text "" 5 = [] ∧ ("" : String).length < 5) := by decide

/-- C5 (amended): chunk boundaries never fall inside a sentence — the chunks
are exactly the space-joins of a partition of the non-empty sentences into
consecutive groups; a group of two or more sentences has total sentence
length at most `maxLen` (so a chunk exceeds `maxLen` only through its
joining spaces, or as a single over-long sentence); and every non-empty text
shorter than `maxLen` yields exactly one chunk. -/
theorem claim_C5_segment_chunks (text : String) (maxLen : Nat) :
    segment_text text maxLen =
      (sentenceGroups text maxLen).map (fun g => (⟨joinSp g⟩ : String)) ∧
    (sentenceGroups text maxLen).flatten =
      (splitSentences text.data).filter (fun t => t != []) ∧
    (∀ g ∈ sentenceGroups text maxLen, g ≠ [] ∧
      (2 ≤ g.length → sumLen g ≤ maxLen) ∧
      (joinSp g).length + 1 = sumLen g + g.length) ∧
    (text ≠ "" → text.length < maxLen → (segment_text text maxLen).length = 1) := by
  refine ⟨?_, ?_, ?_, ?_⟩
  · rw [segment_text, sentenceGroups, segmentLoop_eq_groupLoop, List.map_map]
    rfl
  · rw [sentenceGroups, groupLoop_join]
    rfl
  · intro g hg
    rw [sentenceGroups] at hg
    refine ⟨groupLoop_groups_ne maxLen _ _ _ g hg, ?_, ?_⟩
    · exact groupLoop_sum_le maxLen _ [] 0 (by simp [sumLen]) (by intro h; simp at h) g hg
    · exact joinWith_single_length ' ' g (groupLoop_groups_ne maxLen _ _ _ g hg)
  · intro hne hlen
    have hdata : text.data ≠ [] := by
      intro h
      exact hne (String.ext (by simp [h]))
    obtain ⟨t, htmem, htne⟩ := (split_exists_ne text.data).1 [] (Or.inr hdata)
    have hfne : (splitSentences text.data).filter (fun t => t != []) ≠ [] :=
      List.ne_nil_of_mem (List.mem_filter.mpr ⟨htmem, by simp [htne]⟩)
    have hlen2 : text.data.length = text.length := rfl
    have hsum2 : 0 + sumLen ((splitSentences text.data).filter fun t => t != []) ≤ maxLen := by
      have h1 := sumLen_filter_le (fun t => t != []) (splitSentences text.data)
      have h2 : sumLen (splitSentences text.data) ≤ List.length [] + text.data.length :=
        (split_sumLen text.data).1 []
      simp only [List.length_nil, Nat.zero_add] at h2
      omega
    have hsingle := groupLoop_single maxLen (splitSentences text.data) [] 0 hsum2 (Or.inr hfne)
    rw [segment_text, segmentLoop_eq_groupLoop, hsingle]
    rfl

theorem claim_C5_witness : (segment_text "One. Two." 50).length = 1 :=
  (claim_C5_segment_chunks "One. Two." 50).2.2.2 (by decide) (by decide)

/-! ## Reconstruction of cleaned text (claim C10) -/

/-- Characters of a whitespace-normalized string: every whitespace character
is a plain space, no two adjacent whitespace characters, and no trailing
whitespace.  Exactly the shape produced by `basic_clean`. -/
def wsClean (l : List Char) : Prop :=
  (∀ c ∈ l, isPySpace c = true → c = ' ') ∧
  List.Chain' (fun a b => ¬(isPySpace a = true ∧ isPySpace b = true)) l ∧
  (∀ c, l.getLast? = some c → isPySpace c = false)

theorem wsClean_tail {c : Char} {cs : List Char} (h : wsClean (c :: cs)) : wsClean cs := by
  obtain ⟨hsp, hch, hlast⟩ := h
  refine ⟨fun d hd hw => hsp d (List.mem_cons_of_mem c hd) hw, hch.tail, ?_⟩
  intro d hd
  cases cs with
  | nil => simp at hd
  | cons e es => exact hlast d (by rw [List.getLast?_cons_cons]; exact hd)

theorem collapseWs_ne_nil : ∀ l : List Char, l ≠ [] → collapseWs l ≠ [] := by
  intro l
  induction l with
  | nil => intro h; exact absurd rfl h
  | cons c cs ih =>
    intro _
    cases cs with
    | nil => by_cases h : isPySpace c = true <;> simp [collapseWs, h]
    | cons d rest =>
      simp only [collapseWs]
      by_cases h : (isPySpace c && isPySpace d) = true
      · rw [if_pos h]; exact ih (by simp)
      · rw [if_neg h]; simp

theorem collapseWs_cons_not_ws (d : Char) (rest : List Char) (hd : isPySpace d = false) :
    ∃ tail, collapseWs (d :: rest) = d :: tail := by
  cases rest with
  | nil => exact ⟨[], by simp [collapseWs, hd]⟩
  | cons e es =>
    simp only [collapseWs]
    rw [if_neg (by simp [hd]), if_neg (by simp [hd])]
    exact ⟨_, rfl⟩

theorem collapseWs_spaces : ∀ l : List Char, ∀ c ∈ collapseWs l, isPySpace c = true → c = ' ' := by
  intro l
  induction l with
  | nil => intro c hc; simp [collapseWs] at hc
  | cons a cs ih =>
    intro c hc hw
    cases cs with
    | nil =>
      by_cases h : isPySpace a = true
      · have heq : collapseWs [a] = [' '] := by simp [collapseWs, h]
        rw [heq] at hc
        simpa using hc
      · have heq : collapseWs [a] = [a] := by simp [collapseWs, h]
        rw [heq] at hc
        simp at hc
        subst hc
        exact absurd hw h
    | cons d rest =>
      simp only [collapseWs] at hc
      by_cases h : (isPySpace a && isPySpace d) = true
      · rw [if_pos h] at hc; exact ih c hc hw
      · rw [if_neg h] at hc
        rcases List.mem_cons.mp hc with h1 | h1
        · by_cases ha : isPySpace a = true
          · rw [if_pos ha] at h1; exact h1
          · rw [if_neg ha] at h1; subst h1; exact absurd hw ha
        · exact ih c h1 hw

theorem collapseWs_chain : ∀ l : List Char,
    List.Chain' (fun a b => ¬(isPySpace a = true ∧ isPySpace b = true)) (collapseWs l) := by
  intro l
  induction l with
  | nil => simp [collapseWs]
  | cons a cs ih =>
    cases cs with
    | nil => by_cases h : isPySpace a = true <;> simp [collapseWs, h]
    | cons d rest =>
      simp only [collapseWs]
      by_cases h : (isPySpace a && isPySpace d) = true
      · rw [if_pos h]; exact ih
      · rw [if_neg h]
        refine List.chain'_cons'.mpr ⟨?_, ih⟩
        intro b hb
        by_cases ha : isPySpace a = true
        · rw [if_pos ha]
          have hd : isPySpace d = false := by
            cases hval : isPySpace d
            · rfl
            · exact absurd (by simp [ha, hval]) h
          obtain ⟨tail, htail⟩ := collapseWs_cons_not_ws d rest hd
          rw [htail] at hb
          simp only [List.head?_cons, Option.mem_def, Option.some.injEq] at hb
          subst hb
          rintro ⟨_, hcon⟩
          rw [hd] at hcon
          exact absurd hcon (by simp)
        · rw [if_neg ha]
          rintro ⟨hcon, _⟩
          exact ha hcon

theorem collapseWs_last : ∀ l : List Char,
    (∀ c, l.getLast? = some c → isPySpace c = false) →
    ∀ c, (collapseWs l).getLast? = some c → isPySpace c = false := by
  intro l
  induction l with
  | nil => intro _ c hc; simp [collapseWs] at hc
  | cons a cs ih =>
    intro hl c hc
    cases cs with
    | nil =>
      have ha : isPySpace a = false := hl a (by simp)
      have heq : collapseWs [a] = [a] := by simp [collapseWs, ha]
      rw [heq] at hc
      simp at hc
      subst hc
      exact ha
    | cons d rest =>
      have hl2 : ∀ e, (d :: rest).getLast? = some e → isPySpace e = false := by
        intro e he
        exact hl e (by rw [List.getLast?_cons_cons]; exact he)
      simp only [collapseWs] at hc
      by_cases h : (isPySpace a && isPySpace d) = true
      · rw [if_pos h] at hc; exact ih hl2 c hc
      · rw [if_neg h] at hc
        cases hY : collapseWs (d :: rest) with
        | nil => exact absurd hY (collapseWs_ne_nil _ (by simp))
        | cons y ys =>
          rw [hY, List.getLast?_cons_cons] at hc
          rw [← hY] at hc
          exact ih hl2 c hc

theorem dropTrail_last (p : Char → Bool) :
    ∀ l : List Char, ∀ c, (dropTrail p l).getLast? = some c → p c = false := by
  intro l
  induction l with
  | nil => intro c hc; simp [dropTrail] at hc
  | cons a cs ih =>
    intro c hc
    simp only [dropTrail] at hc
    by_cases h : (dropTrail p cs = [] && p a) = true
    · rw [if_pos h] at hc; simp at hc
    · rw [if_neg h] at hc
      cases hr : dropTrail p cs with
      | nil =>
        rw [hr] at hc
        simp at hc
        subst hc
        rw [hr] at h
        simpa using h
      | cons y ys =>
        rw [hr, List.getLast?_cons_cons, ← hr] at hc
        exact ih c hc

theorem basic_clean_wsClean (t : String) : wsClean (basic_clean t).data := by
  have hdata : (basic_clean t).data =
      collapseWs (stripChars (t.data.map fun c => if c = '﻿' then ' ' else c)) := rfl
  rw [hdata]
  refine ⟨collapseWs_spaces _, collapseWs_chain _, ?_⟩
  refine collapseWs_last _ ?_
  intro c hc
  exact dropTrail_last isPySpace _ c hc

theorem wsClean_sep_facts {c : Char} {cs : List Char} (hcl : wsClean (c :: cs))
    (hw : isPySpace c = true) :
    cs ≠ [] ∧ (∀ d ds, cs = d :: ds → isPySpace d = false) := by
  constructor
  · intro h
    subst h
    have hlast := hcl.2.2 c (by simp)
    rw [hw] at hlast
    exact absurd hlast (by simp)
  · intro d ds h
    subst h
    have hch := hcl.2.1
    rw [List.chain'_cons] at hch
    cases hval : isPySpace d
    · rfl
    · exact absurd ⟨hw, hval⟩ hch.1

theorem split_ne_nil (l : List Char) :
    (∀ acc, splitAux l acc ≠ []) ∧ (∀ acc, splitTerm l acc ≠ []) ∧ splitSep l ≠ [] := by
  induction l with
  | nil => refine ⟨fun acc => ?_, fun acc => ?_, ?_⟩ <;> simp [splitAux, splitTerm, splitSep]
  | cons c cs ih =>
    obtain ⟨ihA, ihT, ihS⟩ := ih
    refine ⟨fun acc => ?_, fun acc => ?_, ?_⟩
    · rw [splitAux]
      by_cases ht : isTerm c
      · rw [if_pos ht]; exact ihT _
      · rw [if_neg ht]; exact ihA _
    · rw [splitTerm]
      by_cases hw : isPySpace c
      · rw [if_pos hw]; simp
      · rw [if_neg hw]
        by_cases ht : isTerm c
        · rw [if_pos ht]; exact ihT _
        · rw [if_neg ht]; exact ihA _
    · rw [splitSep]
      by_cases hw : isPySpace c
      · rw [if_pos hw]; exact ihS
      · rw [if_neg hw]
        by_cases ht : isTerm c
        · rw [if_pos ht]; exact ihT _
        · rw [if_neg ht]; exact ihA _

theorem split_join_clean (l : List Char) :
    wsClean l →
    (∀ acc, joinSp (splitAux l acc) = acc.reverse ++ l) ∧
    (∀ acc, joinSp (splitTerm l acc) = acc.reverse ++ l) ∧
    ((∀ c cs, l = c :: cs → isPySpace c = false) → l ≠ [] → joinSp (splitSep l) = l) := by
  induction l with
  | nil =>
    intro _
    refine ⟨fun acc => ?_, fun acc => ?_, fun _ h => absurd rfl h⟩ <;>
      simp [splitAux, splitTerm, joinSp, joinWith]
  | cons c cs ih =>
    intro hcl
    obtain ⟨ihA, ihT, ihS⟩ := ih (wsClean_tail hcl)
    refine ⟨?_, ?_, ?_⟩
    · intro acc
      rw [splitAux]
      by_cases ht : isTerm c
      · rw [if_pos ht, ihT (c :: acc)]; simp
      · rw [if_neg ht, ihA (c :: acc)]; simp
    · intro acc
      rw [splitTerm]
      by_cases hw : isPySpace c = true
      · rw [if_pos hw]
        have hsp : c = ' ' := hcl.1 c (by simp) hw
        obtain ⟨hcs, hhead⟩ := wsClean_sep_facts hcl hw
        have hsep_ne : splitSep cs ≠ [] := (split_ne_nil cs).2.2
        simp only [joinSp] at ihS ⊢
        rw [joinWith_cons [' '] acc.reverse (splitSep cs) hsep_ne, ihS hhead hcs, hsp]
        simp
      · rw [if_neg hw]
        by_cases ht : isTerm c
        · rw [if_pos ht, ihT (c :: acc)]; simp
        · rw [if_neg ht, ihA (c :: acc)]; simp
    · intro hhead hne
      rw [splitSep]
      have hw : isPySpace c = false := hhead c cs rfl
      rw [if_neg (by simp [hw])]
      by_cases ht : isTerm c
      · rw [if_pos ht, ihT [c]]; simp
      · rw [if_neg ht, ihA [c]]; simp

theorem split_tokens_ne (l : List Char) :
    wsClean l →
    (∀ acc, (acc ≠ [] ∨ l ≠ []) → ∀ t ∈ splitAux l acc, t ≠ []) ∧
    (∀ acc, acc ≠ [] → ∀ t ∈ splitTerm l acc, t ≠ []) ∧
    ((∀ c cs, l = c :: cs → isPySpace c = false) → l ≠ [] → ∀ t ∈ splitSep l, t ≠ []) := by
  induction l with
  | nil =>
    intro _
    refine ⟨?_, ?_, fun _ h => absurd rfl h⟩
    · intro acc hor t ht
      have hacc : acc ≠ [] := by
        rcases hor with h | h
        · exact h
        · exact absurd rfl h
      rw [splitAux] at ht
      simp at ht
      subst ht
      simp only [ne_eq, List.reverse_eq_nil_iff]
      exact hacc
    · intro acc hacc t ht
      rw [splitTerm] at ht
      simp at ht
      subst ht
      simp only [ne_eq, List.reverse_eq_nil_iff]
      exact hacc
  | cons c cs ih =>
    intro hcl
    obtain ⟨ihA, ihT, ihS⟩ := ih (wsClean_tail hcl)
    refine ⟨?_, ?_, ?_⟩
    · intro acc _ t ht
      rw [splitAux] at ht
      by_cases hterm : isTerm c
      · rw [if_pos hterm] at ht; exact ihT (c :: acc) (by simp) t ht
      · rw [if_neg hterm] at ht; exact ihA (c :: acc) (Or.inl (by simp)) t ht
    · intro acc hacc t ht
      rw [splitTerm] at ht
      by_cases hw : isPySpace c = true
      · rw [if_pos hw] at ht
        obtain ⟨hcs, hhead⟩ := wsClean_sep_facts hcl hw
        rcases List.mem_cons.mp ht with h | h
        · subst h
          simp only [ne_eq, List.reverse_eq_nil_iff]
          exact hacc
        · exact ihS hhead hcs t h
      · rw [if_neg hw] at ht
        by_cases hterm : isTerm c
        · rw [if_pos hterm] at ht; exact ihT (c :: acc) (by simp) t ht
        · rw [if_neg hterm] at ht; exact ihA (c :: acc) (Or.inl (by simp)) t ht
    · intro hhead hne t ht
      rw [splitSep] at ht
      have hw : isPySpace c = false := hhead c cs rfl
      rw [if_neg (by simp [hw])] at ht
      by_cases hterm : isTerm c
      · rw [if_pos hterm] at ht; exact ihT [c] (by simp) t ht
      · rw [if_neg hterm] at ht; exact ihA [c] (Or.inl (by simp)) t ht

theorem joinWith_append (sep : List Char) :
    ∀ a b : List (List Char), a ≠ [] → b ≠ [] →
    joinWith sep (a ++ b) = joinWith sep a ++ sep ++ joinWith sep b := by
  intro a
  induction a with
  | nil => intro b h _; exact absurd rfl h
  | cons x xs ih =>
    intro b _ hb
    cases xs with
    | nil =>
      simp only [List.nil_append, List.singleton_append]
      rw [joinWith_cons sep x b hb]
      rfl
    | cons y ys =>
      have hxs : (y :: ys) ++ b ≠ [] := by simp
      rw [List.cons_append, joinWith_cons sep x ((y :: ys) ++ b) hxs, ih b (by simp) hb,
        joinWith_cons sep x (y :: ys) (by simp)]
      simp [List.append_assoc]

theorem joinWith_map_flatten (sep : List Char) :
    ∀ groups : List (List (List Char)), (∀ g ∈ groups, g ≠ []) →
    joinWith sep (groups.map (joinWith sep)) = joinWith sep groups.flatten := by
  intro groups
  induction groups with
  | nil => intro _; rfl
  | cons g gs ih =>
    intro h
    cases gs with
    | nil => simp [joinWith]
    | cons g2 rest =>
      have hg : g ≠ [] := h g (by simp)
      have hg2 : g2 ≠ [] := h g2 (by simp)
      have hflat : (g2 :: rest).flatten ≠ [] := by
        intro hc
        rw [List.flatten_cons] at hc
        exact hg2 (List.append_eq_nil.mp hc).1
      have hmap : (g2 :: rest).map (joinWith sep) ≠ [] := by simp
      rw [List.map_cons, joinWith_cons sep (joinWith sep g) _ hmap,
        ih (fun g hgm => h g (List.mem_cons_of_mem _ hgm)),
        show ((g :: g2 :: rest).flatten : List (List Char)) = g ++ (g2 :: rest).flatten from rfl,
        joinWith_append sep g (g2 :: rest).flatten hg hflat]

/-- C10: segmentation loses no content — for every cleaned text (a fixed
point of `basic_clean`, i.e. whitespace already collapsed to single spaces
and trimmed) and every `maxLen`, joining the chunks of `segment_text` with
single spaces reconstructs the text exactly. -/
theorem claim_C10_segment_lossless (t : String) (maxLen : Nat) (h : basic_clean t = t) :
    pyJoin [' '] (segment_text t maxLen) = t := by
  by_cases ht : t = ""
  · subst ht
    rfl
  · have hcl : wsClean t.data := by
      have hw := basic_clean_wsClean t
      rw [h] at hw
      exact hw
    have hdata : t.data ≠ [] := by
      intro hd
      exact ht (String.ext (by simp [hd]))
    have htok : ∀ s ∈ splitSentences t.data, s ≠ [] :=
      (split_tokens_ne t.data hcl).1 [] (Or.inr hdata)
    have hjoin : joinSp (splitSentences t.data) = t.data := by
      have hj := (split_join_clean t.data hcl).1 []
      simpa using hj
    have hgroups_ne := groupLoop_groups_ne maxLen (splitSentences t.data) [] 0
    have hflat : (groupLoop maxLen (splitSentences t.data) [] 0).flatten =
        splitSentences t.data := by
      rw [groupLoop_join]
      simp only [List.nil_append]
      exact List.filter_eq_self.mpr fun s hs => by simp [htok s hs]
    have hdchunks : (segment_text t maxLen).map String.data =
        (groupLoop maxLen (splitSentences t.data) [] 0).map (joinWith [' ']) := by
      rw [segment_text, segmentLoop_eq_groupLoop, List.map_map, List.map_map]
      exact List.map_congr_left fun g _ => rfl
    have hstr : pyJoin [' '] (segment_text t maxLen) =
        (⟨joinWith [' '] ((groupLoop maxLen (splitSentences t.data) [] 0).map
          (joinWith [' ']))⟩ : String) := by
      rw [pyJoin, hdchunks]
    rw [hstr, joinWith_map_flatten [' '] _ hgroups_ne, hflat]
    have hjoin2 : joinWith [' '] (splitSentences t.data) = t.data := hjoin
    rw [hjoin2]

theorem claim_C10_witness :
    basic_clean "One. Two two. Three!" = "One. Two two. Three!" ∧
    pyJoin [' '] (segment_text "One. Two two. Three!" 12) = "One. Two two. Three!" :=
  ⟨by decide, claim_C10_segment_lossless "One. Two two. Three!" 12 (by decide)⟩

/-! ## Word wrapping (Document Assembler, claim C9) -/

/-- Words of a string: loop of Python `str.split()` with no separator,
collecting maximal non-whitespace runs. -/
def wordsAux : List Char → List Char → List (List Char)
  | [], acc => if acc = [] then [] else [acc.reverse]
  | c :: cs, acc =>
    if isPySpace c then
      if acc = [] then wordsAux cs [] else acc.reverse :: wordsAux cs []
    else wordsAux cs (c :: acc)

/-- Python `text.split()`: the whitespace-separated words of a text. -/
def pyWords (l : List Char) : List (List Char) := wordsAux l []

/-- Greedy line filling: pack words into the current line while the line
stays within `width` characters (words plus single joining spaces). -/
def wrapLines (width : Nat) : List (List Char) → List (List Char) → Nat → List (List (List Char))
  | [], current, _ => if current = [] then [] else [current]
  | w :: rest, current, clen =>
    if current = [] then wrapLines width rest [w] w.length
    else if clen + 1 + w.length ≤ width then
      wrapLines width rest (current ++ [w]) (clen + 1 + w.length)
    else current :: wrapLines width rest [w] w.length

/-- Modelled from the spec: `utils.wrap_paragraph` delegates to the Python
standard library call `textwrap.fill(text, width=90)`, which is not part of
`src/`; per the spec's Document Assembler contract the paragraph is rendered
word-wrapped with a soft limit of `width` characters per line, breaking only
at word boundaries — modelled as greedy packing of the whitespace-separated
words into lines joined by newlines. -/
def wrap_paragraph (text : String) (width : Nat := 90) : String :=
  ⟨joinNl ((wrapLines width (pyWords text.data) [] 0).map fun l => joinSp l)⟩

example : wrap_paragraph "alpha beta gamma delta" 11 = "alpha beta\ngamma delta" := by decide

theorem wrapLines_flatten (width : Nat) :
    ∀ (ws current : List (List Char)) (clen : Nat),
    (wrapLines width ws current clen).flatten = current ++ ws := by
  intro ws
  induction ws with
  | nil => intro current clen; by_cases h : current = [] <;> simp [wrapLines, h]
  | cons w rest ih =>
    intro current clen
    by_cases hcur : current = []
    · rw [wrapLines, if_pos hcur, ih [w] w.length, hcur]
      simp
    · rw [wrapLines, if_neg hcur]
      by_cases hfit : clen + 1 + w.length ≤ width
      · rw [if_pos hfit, ih (current ++ [w]) (clen + 1 + w.length)]
        simp
      · rw [if_neg hfit]
        simp only [List.flatten_cons]
        rw [ih [w] w.length]
        simp

theorem wrapLines_lines_ne (width : Nat) :
    ∀ (ws current : List (List Char)) (clen : Nat),
    ∀ g ∈ wrapLines width ws current clen, g ≠ [] := by
  intro ws
  induction ws with
  | nil =>
    intro current clen g hg
    by_cases h : current = []
    · simp [wrapLines, h] at hg
    · rw [wrapLines, if_neg h] at hg
      simp only [List.mem_singleton] at hg
      rw [hg]
      exact h
  | cons w rest ih =>
    intro current clen g hg
    by_cases hcur : current = []
    · rw [wrapLines, if_pos hcur] at hg
      exact ih [w] w.length g hg
    · rw [wrapLines, if_neg hcur] at hg
      by_cases hfit : clen + 1 + w.length ≤ width
      · rw [if_pos hfit] at hg
        exact ih (current ++ [w]) (clen + 1 + w.length) g hg
      · rw [if_neg hfit] at hg
        rcases List.mem_cons.mp hg with h | h
        · rw [h]; exact hcur
        · exact ih [w] w.length g h

theorem wrapLines_sum_le (width : Nat) :
    ∀ (ws current : List (List Char)) (clen : Nat),
    (current ≠ [] → clen + 1 = sumLen current + current.length) →
    (2 ≤ current.length → clen ≤ width) →
    ∀ g ∈ wrapLines width ws current clen, 2 ≤ g.length → sumLen g + g.length ≤ width + 1 := by
  intro ws
  induction ws with
  | nil =>
    intro current clen hinv hbound g hg h2
    by_cases h : current = []
    · simp [wrapLines, h] at hg
    · rw [wrapLines, if_neg h] at hg
      simp only [List.mem_singleton] at hg
      subst hg
      have h1 := hinv h
      have h3 := hbound h2
      omega
  | cons w rest ih =>
    intro current clen hinv hbound g hg h2
    by_cases hcur : current = []
    · rw [wrapLines, if_pos hcur] at hg
      refine ih [w] w.length (fun _ => by simp [sumLen]) (by intro hc; simp at hc) g hg h2
    · rw [wrapLines, if_neg hcur] at hg
      by_cases hfit : clen + 1 + w.length ≤ width
      · rw [if_pos hfit] at hg
        refine ih (current ++ [w]) (clen + 1 + w.length) ?_ ?_ g hg h2
        · intro _
          have h1 := hinv hcur
          rw [sumLen_append]
          simp only [List.length_append, List.length_cons, List.length_nil, sumLen,
            List.map_cons, List.map_nil, List.sum_cons, List.sum_nil] at h1 ⊢
          omega
        · intro _
          omega
      · rw [if_neg hfit] at hg
        rcases List.mem_cons.mp hg with h | h
        · subst h
          have h1 := hinv hcur
          have h3 := hbound h2
          omega
        · refine ih [w] w.length (fun _ => by simp [sumLen]) (by intro hc; simp at hc) g h h2

/-- C9 (spec-modelled `textwrap.fill`): the paragraph wrapper breaks only at
word boundaries — concatenating the words of the produced lines, in order,
yields exactly the words of the input, so no word is ever split across two
lines — and every line holding two or more words stays within the soft limit
of 90 characters. -/
theorem claim_C9_wrap_word_boundaries (text : String) :
    wrap_paragraph text 90 =
      (⟨joinNl ((wrapLines 90 (pyWords text.data) [] 0).map fun l => joinSp l)⟩ : String) ∧
    (wrapLines 90 (pyWords text.data) [] 0).flatten = pyWords text.data ∧
    ∀ g ∈ wrapLines 90 (pyWords text.data) [] 0, g ≠ [] ∧
      (2 ≤ g.length → (joinSp g).length ≤ 90) := by
  refine ⟨rfl, ?_, ?_⟩
  · rw [wrapLines_flatten]
    rfl
  · intro g hg
    have hne := wrapLines_lines_ne 90 (pyWords text.data) [] 0 g hg
    refine ⟨hne, fun h2 => ?_⟩
    have hlen := joinWith_single_length ' ' g hne
    have hsum := wrapLines_sum_le 90 (pyWords text.data) [] 0
      (fun hc => absurd rfl hc) (by intro hc; simp at hc) g hg h2
    simp only [joinSp]
    omega

theorem claim_C9_witness :
    (wrapLines 90 (pyWords ("hello world" : String).data) [] 0).flatten =
      pyWords ("hello world" : String).data :=
  (claim_C9_wrap_word_boundaries "hello world").2.1

/-! ## Generation backends and section composition (`src/reviewgen/llm.py`,
`src/reviewgen/generator.py`) -/

/-- A generation backend: `generate(prompt, max_tokens)` either returns text
or raises, modelled by `Except` carrying the error message. -/
structure LLMClient where
  generate : String → Nat → Except String String

/-- `llm.LocalRuleLLM.generate`: the deterministic offline generator — the
last line of the prompt followed by a fixed suffix; it never raises. -/
def localRuleGenerate (prompt : String) (maxTokens : Nat) : Except String String :=
  let snippet := ((splitOnChar '\n' prompt.data).map fun l => (⟨l⟩ : String)).getLastD ""
  .ok (snippet ++ " —— 本段由本地规则生成，无外部LLM调用。")

/-- `llm.LocalRuleLLM`, the default backend when none is configured. -/
def LocalRuleLLM : LLMClient := ⟨localRuleGenerate⟩

/-- A backend whose `generate` always raises. -/
def failClient : LLMClient := ⟨fun _ _ => .error "boom"⟩

/-- The prompt built by `generator._build_paragraph`. -/
def base_prompt (title topic audience : String) (keywords : List String)
    (label lang : String) : String :=
  "Write a concise paragraph (~120 words) for a literature review section.\n" ++
  "Section: " ++ title ++ "\nTopic: " ++ topic ++ "\nAudience: " ++ audience ++
  "\nKeywords: " ++
  (let k := pyJoin [',', ' '] (keywords.take 8); if k = "" then topic else k) ++ "\n" ++
  "Language: " ++ (if lang = "zh" then "Chinese" else "English") ++ "\n" ++
  "Include citation marker if provided: " ++ (if label = "" then "None" else label) ++ "\n" ++
  "Emphasize evolution, representative work, applications, and open issues.\n"

/-- `generator._fallback_paragraph`: the rule-based paragraph used when LLM
generation fails or is skipped. -/
def fallback_paragraph (title topic audience : String) (keywords : List String)
    (label lang : String) : String :=
  let kws := if keywords ≠ [] then pyJoin [',', ' '] (keywords.take 5) else topic
  let citation := if label ≠ "" then " (" ++ label ++ ")" else ""
  if lang = "zh" then
    "本节聚焦 " ++ topic ++ " 领域中的「" ++ title ++ "」。" ++
    " 面向 " ++ audience ++ " 受众，我们强调 " ++ kws ++
    " 的演进、代表性工作与应用场景" ++ citation ++ "。" ++
    " 同时概括方法与数据的改进，并指出仍待解决的开放问题。"
  else
    "This section covers '" ++ title ++ "' within " ++ topic ++ "." ++
    " For " ++ audience ++ " readers, it highlights the evolution of " ++ kws ++ citation ++
    "," ++ " representative work, and practical use cases, summarizing method/data advances" ++
    " and open issues."

/-- `generator._build_paragraph`: use the backend's text when it is
non-empty; fall back silently on any raised error or empty result. -/
def build_paragraph (title topic audience : String) (keywords : List String)
    (label lang : String) (llm_client : LLMClient) : String :=
  match llm_client.generate (base_prompt title topic audience keywords label lang) 180 with
  | .ok text =>
    if text ≠ "" then text else fallback_paragraph title topic audience keywords label lang
  | .error _ => fallback_paragraph title topic audience keywords label lang

/-- `generator._build_bullets`: three fixed-shape bullet lines. -/
def build_bullets (title topic : String) (keywords : List String) (label lang : String) :
    List String :=
  let kws := if keywords ≠ [] then pyJoin [',', ' '] (keywords.take 3) else topic
  let marker := if label ≠ "" then " " ++ label else ""
  if lang = "zh" then
    ["核心议题：" ++ title ++ " 与 " ++ topic ++ marker,
      "关键概念：" ++ kws,
      "趋势/贡献：方法、数据、应用"]
  else
    ["Core focus: " ++ title ++ " within " ++ topic ++ marker,
      "Key concepts: " ++ kws,
      "Trends/contributions: methods, data, applications"]

/-- `generator._build_section`: `## title`, bullet block, wrapped paragraph. -/
def build_section (title : String) (bullets : List String) (paragraph : String) : String :=
  "## " ++ title ++ "\n\n" ++ pyJoin ['\n'] (bullets.map fun b => "- " ++ b) ++ "\n\n" ++
  wrap_paragraph paragraph 90 ++ "\n"

/-- `preprocess.extract_keywords`: empty input yields no keywords; the
TF-IDF ranking of non-empty input is an external `sklearn` computation,
abstracted as the `ranker` argument. -/
def extract_keywords (ranker : List String → List String) (texts : List String) : List String :=
  if texts = [] then [] else ranker texts

/-- The Jinja2 template of `generate_review`, rendered with the default
Jinja2 whitespace handling: block tags are removed, the newlines of their
lines remain part of the surrounding output, and the single trailing newline
of the template source is stripped. -/
def render_template (topic audience : String) (length : Nat) (mode now lang : String)
    (sections : List String) (references : String) : String :=
  "# " ++ topic ++ " — Review\n" ++
  "_Audience_: " ++ audience ++ " | _Length target_: " ++ decimalRepr length ++
  " words | _Mode_: " ++ mode ++ " | _Date_: " ++ now ++ " | _Lang_: " ++ lang ++ "\n\n" ++
  String.join (sections.map fun s => "\n" ++ s ++ "\n") ++ "\n" ++
  (if references ≠ "" then "\n## References\n" ++ references ++ "\n"
   else "\n**未使用外部资料 / No external sources used.**\n")

/-- `generator.generate_review`: assemble the review Markdown.  `now` stands
for `datetime.date.today().isoformat()` and `ranker` for the external TF-IDF
ranking used by `extract_keywords` (both outside the pure pipeline). -/
def generate_review (topic audience : String) (length : Nat) (mode : String)
    (keywords : List String) (outline : List String) (sources : List String)
    (source_names : Option (List String)) (lang : String)
    (llm_client : Option LLMClient) (now : String)
    (ranker : List String → List String) : String :=
  let names := source_names.getD []
  let mapping :=
    if names ≠ [] then map_sources names
    else if sources ≠ [] then
      map_sources ((List.range sources.length).map fun i => "Source_" ++ decimalRepr (i + 1))
    else []
  let citation_labels := rotate_citations mapping (max outline.length 1)
  let auto_keywords := if keywords = [] then extract_keywords ranker sources else keywords
  let all_keywords := if keywords ≠ [] then keywords else auto_keywords
  let sections := outline.enum.map fun it =>
    build_section it.2 (build_bullets it.2 topic all_keywords (citation_labels.getD it.1 "") lang)
      (build_paragraph it.2 topic audience all_keywords (citation_labels.getD it.1 "") lang
        (llm_client.getD LocalRuleLLM))
  let references := if mapping ≠ [] then format_references mapping else ""
  render_template topic audience length mode now lang sections references

/-- `generator.plan_and_generate`: plan the outline, then generate. -/
def plan_and_generate (topic audience : String) (length : Nat) (mode : String)
    (keywords : List String) (custom_outline : Option String) (sources : List String)
    (source_names : Option (List String)) (lang : String) (llm_client : Option LLMClient)
    (now : String) (ranker : List String → List String) : Except String String :=
  (generate_outline mode topic keywords custom_outline).map fun outline =>
    generate_review topic audience length mode keywords outline sources source_names lang
      llm_client now ranker

/-- The review Markdown in which every section paragraph is the
deterministic fallback template output — the document the specification
expects from a failing (or absent) backend. -/
def fallbackReview (topic audience : String) (length : Nat) (mode : String)
    (keywords : List String) (outline : List String) (sources : List String)
    (source_names : Option (List String)) (lang : String) (now : String)
    (ranker : List String → List String) : String :=
  let names := source_names.getD []
  let mapping :=
    if names ≠ [] then map_sources names
    else if sources ≠ [] then
      map_sources ((List.range sources.length).map fun i => "Source_" ++ decimalRepr (i + 1))
    else []
  let citation_labels := rotate_citations mapping (max outline.length 1)
  let auto_keywords := if keywords = [] then extract_keywords ranker sources else keywords
  let all_keywords := if keywords ≠ [] then keywords else auto_keywords
  let sections := outline.enum.map fun it =>
    build_section it.2 (build_bullets it.2 topic all_keywords (citation_labels.getD it.1 "") lang)
      (fallback_paragraph it.2 topic audience all_keywords (citation_labels.getD it.1 "") lang)
  let references := if mapping ≠ [] then format_references mapping else ""
  render_template topic audience length mode now lang sections references

theorem build_paragraph_error (title topic audience : String) (keywords : List String)
    (label lang : String) (client : LLMClient)
    (h : (∃ e, client.generate (base_prompt title topic audience keywords label lang) 180 =
        .error e) ∨
      client.generate (base_prompt title topic audience keywords label lang) 180 = .ok "") :
    build_paragraph title topic audience keywords label lang client =
      fallback_paragraph title topic audience keywords label lang := by
  simp only [build_paragraph]
  rcases h with ⟨e, he⟩ | h
  · rw [he]
  · rw [h]
    simp

/-- C2: for every section input and every generation backend, if the
backend's `generate` raises any error or returns an empty result, section
composition does not propagate the failure — it returns the deterministic
fallback paragraph. -/
theorem claim_C2_fallback_on_error (title topic audience : String) (keywords : List String)
    (label lang : String) (client : LLMClient)
    (h : (∃ e, client.generate (base_prompt title topic audience keywords label lang) 180 =
        .error e) ∨
      client.generate (base_prompt title topic audience keywords label lang) 180 = .ok "") :
    build_paragraph title topic audience keywords label lang client =
      fallback_paragraph title topic audience keywords label lang :=
  build_paragraph_error title topic audience keywords label lang client h

theorem claim_C2_witness :
    build_paragraph "A" "B" "C" [] "" "en" failClient =
      fallback_paragraph "A" "B" "C" [] "" "en" :=
  claim_C2_fallback_on_error "A" "B" "C" [] "" "en" failClient (Or.inl ⟨"boom", rfl⟩)

/-- C1 (amended): with any always-raising backend the pipeline renders
exactly the document whose every section paragraph is the deterministic
fallback template output; with no backend configured the default
`LocalRuleLLM` is used instead and its non-empty echo text ends up in the
paragraphs, so the two runs differ (see the counterexample). -/
theorem claim_C1_failing_backend_renders_fallback (topic audience : String) (length : Nat)
    (mode : String) (keywords : List String) (outline : List String) (sources : List String)
    (source_names : Option (List String)) (lang now : String)
    (ranker : List String → List String) (client : LLMClient)
    (hfail : ∀ p n, ∃ e, client.generate p n = .error e) :
    generate_review topic audience length mode keywords outline sources source_names lang
        (some client) now ranker =
      fallbackReview topic audience length mode keywords outline sources source_names lang
        now ranker := by
  have hpar : ∀ (title label : String) (allkw : List String),
      build_paragraph title topic audience allkw label lang client =
        fallback_paragraph title topic audience allkw label lang := by
    intro title label allkw
    exact build_paragraph_error title topic audience allkw label lang client
      (Or.inl (hfail (base_prompt title topic audience allkw label lang) 180))
  simp only [generate_review, fallbackReview, Option.getD]
  refine congrArg₂ (render_template topic audience length mode now lang) ?_ rfl
  exact List.map_congr_left fun it _ => congrArg _ (hpar it.2 _ _)

theorem claim_C1_witness :
    generate_review "Test" "general" 1500 "application" []
        ["Introduction", "Applications"] [] none "en" (some failClient) "2026-10-12"
        (fun _ => []) =
      fallbackReview "Test" "general" 1500 "application" []
        ["Introduction", "Applications"] [] none "en" "2026-10-12" (fun _ => []) :=
  claim_C1_failing_backend_renders_fallback "Test" "general" 1500 "application" []
    ["Introduction", "Applications"] [] none "en" "2026-10-12" (fun _ => []) failClient
    (fun p n => ⟨"boom", rfl⟩)

/-- C1 counterexample: at the specification's own scenario (topic `"Test"`,
mode `"application"`, no sources, `lang = "en"`), running the pipeline with
an always-raising backend does not yield the same Markdown as running it
with no backend configured: the latter substitutes the default local rule
backend, whose non-empty echo text is used verbatim in place of the
deterministic fallback template. -/
theorem claim_C1_counterexample :
    plan_and_generate "Test" "general" 1500 "application" [] none [] none "en"
        (some failClient) "2026-10-12" (fun _ => []) ≠
      plan_and_generate "Test" "general" 1500 "application" [] none [] none "en"
        none "2026-10-12" (fun _ => []) := by
  decide

end ReviewGen
